import Mathlib

/-!
Verification development for the handwritten-paper evaluator
(`processor.py`, `evaluator.py`, `main.py`).

The Python sources are embedded shallowly:

* strings are Lean `String`s (lists of characters); Python `str.lower`,
  `str.split()`, `str.strip(".,")` and `str.isdigit` are re-implemented
  character-by-character below;
* machine floats of the scoring pipeline are modelled by exact rationals
  (`ℚ`); `round(x, 2)` is modelled by `round2`;
* Python dicts (insertion-ordered, unique keys) are modelled by
  association lists `List (String × β)` with `findVal` lookup;
* NumPy images are `List (List Nat)` (rows of pixel values); the line
  segmenter only consumes the per-row sums and the row count, which the
  embedding computes the same way;
* external collaborators (pdf2image rasterisation, EasyOCR transcription,
  rapidfuzz similarity) are not repository code: rasterisation and
  transcription outcomes are passed in as data, and the rapidfuzz
  similarity metric is modelled from the specification (see `wratioSim`).
-/

set_option maxHeartbeats 1000000

namespace PaperEval

/-- Python `str.lower()` applied character-wise. -/
def lowerStr (s : String) : String := ⟨s.data.map Char.toLower⟩

/-- Worker for `splitWS`: accumulates the current word (reversed) while
scanning the character list, closing a word at each whitespace run. -/
def splitWSGo (acc : List Char) : List Char → List String
  | [] => if acc = [] then [] else [⟨acc.reverse⟩]
  | c :: cs =>
    if c.isWhitespace then
      if acc = [] then splitWSGo [] cs else ⟨acc.reverse⟩ :: splitWSGo [] cs
    else splitWSGo (c :: acc) cs

/-- Python `str.split()` with no argument: split on whitespace runs and
drop empty pieces. -/
def splitWS (s : String) : List String := splitWSGo [] s.data

/-- The strip set `".,"` used by `evaluator.py` line 96: a character is
stripped iff it is `'.'` or `','`. -/
def isPunct (c : Char) : Bool := c == '.' || c == ','

/-- Python `w.strip(".,")`: remove every leading and trailing `'.'` or
`','` character (both ends). -/
def stripPunct (s : String) : String :=
  ⟨((s.data.dropWhile isPunct).reverse.dropWhile isPunct).reverse⟩

/-- Removal of trailing `'.'`/`','` only.  This is what the claim text for
C1 describes ("strip trailing `.` and `,`"); the code's `strip(".,")`
removes from both ends. -/
def stripTrailing (s : String) : String :=
  ⟨(s.data.reverse.dropWhile isPunct).reverse⟩

/-- Digit characters of a string, in order (`"".join(filter(str.isdigit, s))`,
`evaluator.py` line 46). -/
def digitsOf (s : String) : String := ⟨s.data.filter Char.isDigit⟩

/-- Python `any(char.isdigit() for char in s)` (`evaluator.py` line 44). -/
def hasDigit (s : String) : Bool := s.data.any Char.isDigit

/-- First-match lookup in an association list; models Python dict lookup
(`d[k]`, `k in d`) since dict keys are unique. -/
def findVal {β : Type} (q : String) : List (String × β) → Option β
  | [] => none
  | p :: ps => if p.1 = q then some p.2 else findVal q ps

/-- Length of the longest common subsequence of two character lists; the
basis of the modelled indel similarity `wratioSim`. -/
def lcsLen : List Char → List Char → Nat
  | [], _ => 0
  | _ :: _, [] => 0
  | a :: as, b :: bs =>
    if a = b then lcsLen as bs + 1
    else max (lcsLen (a :: as) bs) (lcsLen as (b :: bs))
termination_by xs ys => xs.length + ys.length

/-- Modelled from the spec: `rapidfuzz.fuzz.WRatio`, the similarity metric
used at `evaluator.py` line 123, is external library code not present in
this repository.  The spec (section 4.4) requires a similarity
"normalized 0–100" that rewards near-complete matches, with 100 for an
exact match.  We model it by the normalized indel similarity
`100 * 2*lcs(a,b) / (|a| + |b|)` (rapidfuzz's `fuzz.ratio`), which has
exactly those properties. -/
def wratioSim (a b : String) : ℚ :=
  if a.data.length + b.data.length = 0 then 100
  else 100 * (2 * lcsLen a.data b.data) / (a.data.length + b.data.length)

/-- One step of the best-match scan of `process.extractOne`: keep the
running best, replacing it only on a strictly better score (so the
earliest choice wins ties). -/
def extractStep (query : String) (best : Option (String × ℚ)) (c : String) :
    Option (String × ℚ) :=
  match best with
  | none => some (c, wratioSim query c)
  | some b => if b.2 < wratioSim query c then some (c, wratioSim query c) else best

/-- Models `rapidfuzz.process.extractOne(query, choices, scorer=...)`:
`none` on an empty choice list, otherwise the (choice, score) pair with
the maximal score, keeping the earliest choice on ties. -/
def extractOne (query : String) (choices : List String) : Option (String × ℚ) :=
  choices.foldl (extractStep query) none

/-- Python `round(x, 2)`: rounding to two decimal places, modelled with
`round` on rationals (the only difference with Python's float banker's
rounding lies at exact half-way points, irrelevant to the claims). -/
def round2 (q : ℚ) : ℚ := ((round (q * 100) : ℤ) : ℚ) / 100

/-- The unique technical terms extracted from a key answer
(`evaluator.py` line 96):
`list(set([w.strip(".,") for w in key_text.lower().split() if len(w) > 4]))`.
Note the length test is on the token before stripping, and `strip`
removes from both ends.  `List.dedup` stands for `list(set(..))`; the
claims only use its set of elements, so the (unspecified) Python set
iteration order is immaterial. -/
def buildRubricTerms (keyText : String) : List String :=
  (((splitWS (lowerStr keyText)).filter (fun w => 4 < w.length)).map stripPunct).dedup

/-- The weighted rubric `{word: 10 for word in key_words}`
(`evaluator.py` line 98). -/
def buildRubric (keyText : String) : List (String × ℚ) :=
  (buildRubricTerms keyText).map (fun w => (w, 10))

/-- Terms as described by claim C1: lower-case, split, strip *trailing*
`.`/`,`, keep tokens longer than 4 characters *after* stripping,
deduplicate.  Written from the claim's words, to be compared with
`buildRubricTerms` (which follows the code). -/
def claimRubricTerms (keyText : String) : List String :=
  (((splitWS (lowerStr keyText)).map stripTrailing).filter (fun w => 4 < w.length)).dedup

/-- `HandwritingEvaluator.compare_to_key` (`evaluator.py` lines 108–132):
fuzzy comparison of a student answer against a weight map.  The per-term
loop is rendered as a filter (terms whose best match scores at least 80)
followed by the earned-weight sum and the evidence strings, which is the
same accumulation in iteration order. -/
def compareToKey (studentText : String) (weightMap : List (String × ℚ)) :
    ℚ × List String :=
  if studentText = "" ∨ weightMap = [] then (0, [])
  else
    let studentWords := splitWS (lowerStr studentText)
    let matched := weightMap.filter (fun tw =>
      match extractOne tw.1 studentWords with
      | some m => decide (80 ≤ m.2)
      | none => false)
    let earned := (matched.map (fun tw => tw.2)).sum
    let found := matched.map (fun tw =>
      match extractOne tw.1 studentWords with
      | some m => tw.1 ++ " (" ++ toString ⌊m.2⌋ ++ "%)"
      | none => tw.1)
    let total := (weightMap.map (fun tw => tw.2)).sum
    let finalScore := if 0 < total then earned / total * 100 else 0
    (round2 finalScore, found)

/-- Result record for one question, mirroring the Python result dicts of
`grade_paper`: `\x7b"score": .., "matches": ..\x7d` or
`{"score": 0.0, "status": ..}`. -/
structure GradeResult where
  score : ℚ
  matchList : Option (List String)
  status : Option String
deriving DecidableEq, Repr

/-- The status string of `evaluator.py` line 104. -/
def noKeyStatus : String := "No matching question in Answer Key"

/-- `HandwritingEvaluator.grade_paper` (`evaluator.py` lines 84–106):
per student question, build the rubric from the matching key answer and
score, or emit the no-matching-question result. -/
def gradePaper (studentMap masterKeyMap : List (String × String)) :
    List (String × GradeResult) :=
  studentMap.map (fun qs =>
    match findVal qs.1 masterKeyMap with
    | some keyText =>
      let r := compareToKey qs.2 (buildRubric keyText)
      (qs.1, { score := r.1, matchList := some r.2, status := none })
    | none => (qs.1, { score := 0, matchList := none, status := some noKeyStatus }))

/-- Per-row ink sums of a binary image (`np.sum(binary_image, axis=1)`,
`processor.py` line 44). -/
def rowSums (img : List (List Nat)) : List Nat := img.map (fun r => r.sum)

/-- `np.max` with 0 on the empty list (NumPy raises there; an image always
has at least one row). -/
def maxList (l : List Nat) : Nat := l.foldr max 0

/-- Row indices whose ink sum exceeds the noise threshold
(`threshold = np.max(row_sums) * 0.02; np.where(row_sums > threshold)`,
`processor.py` lines 46–47).  `row > max * 0.02` is the exact rational
comparison `50 * row > max`; the float factor `0.02` is modelled by the
rational `1/50`. -/
def inkRows (img : List (List Nat)) : List Nat :=
  (List.range (rowSums img).length).filter
    (fun i => 50 * (rowSums img).getD i 0 > maxList (rowSums img))

/-- Worker for `rawIntervals`: runs of consecutive ink rows are closed
whenever the gap to the next ink row exceeds 15 (`diffs > 15`,
`processor.py` lines 53–61).  `n - prev > 15` over Python ints is
`prev + 15 < n`. -/
def rawGo (start prev : Nat) : List Nat → List (Nat × Nat)
  | [] => [(start, prev)]
  | n :: ns =>
    if prev + 15 < n then (start, prev) :: rawGo n n ns else rawGo start n ns

/-- Grouping of the ink-row indices into raw `(start, end)` fragments
(`processor.py` lines 52–61). -/
def rawIntervals : List Nat → List (Nat × Nat)
  | [] => []
  | r :: rs => rawGo r r rs

/-- Worker for `mergeIntervals`: the greedy adjacent merge of
`processor.py` lines 64–76.  `(next_start - curr_end) < 40` over Python
ints is `next_start < curr_end + 40`. -/
def mergeGo (cs ce : Nat) : List (Nat × Nat) → List (Nat × Nat)
  | [] => [(cs, ce)]
  | q :: rest =>
    if q.1 < ce + 40 then mergeGo cs q.2 rest
    else (cs, ce) :: mergeGo q.1 q.2 rest

/-- Smart merge of vertically close raw fragments (`processor.py`
lines 63–76). -/
def mergeIntervals : List (Nat × Nat) → List (Nat × Nat)
  | [] => []
  | p :: rest => mergeGo p.1 p.2 rest

/-- `DocumentProcessor.extract_lines` (`processor.py` lines 40–87),
returning for each emitted line crop the vertical interval
`(y1, y2)` of the crop `binary_image[y1:y2, :]` (so `[y1, y2)` half-open).
The minimum-height test `(e - s) > 30` over Python ints is `s + 30 < e`;
the padding is `y1 = max(0, s - 20)` (truncated Nat subtraction) and
`y2 = min(binary_image.shape[0], e + 20)`. -/
def extractLines (img : List (List Nat)) : List (Nat × Nat) :=
  if inkRows img = [] then []
  else
    ((mergeIntervals (rawIntervals (inkRows img))).filter
        (fun p => p.1 + 30 < p.2)).map
      (fun p => (p.1 - 20, min img.length (p.2 + 20)))

/-- Input data for one cropped line as consumed by
`HandwritingEvaluator.segment_content`: its pixel height
(`line.shape[0]`), the margin transcription (the list of strings returned
by `reader.readtext(margin_box, detail=0)`) and the full-line
transcription (`reader.readtext(.., detail=0, paragraph=True)`).  The
transcription collaborator is external, so its outputs are part of the
input. -/
structure LineCrop where
  height : Nat
  margin : List String
  text : List String
deriving DecidableEq, Repr

/-- Ensure a key exists in the accumulation dict
(`if current_q not in structured_data: structured_data[current_q] = ""`). -/
def dictEnsure (d : List (String × String)) (k : String) : List (String × String) :=
  match findVal k d with
  | some _ => d
  | none => d ++ [(k, "")]

/-- Dict write `d[k] = v`, preserving insertion order. -/
def dictUpsert (d : List (String × String)) (k v : String) : List (String × String) :=
  match findVal k d with
  | some _ => d.map (fun p => if p.1 = k then (p.1, v) else p)
  | none => d ++ [(k, v)]

/-- Dict read with default (`d.get(k, "")`-style; here the key is always
present when read, but the total function is convenient). -/
def dictGetD (d : List (String × String)) (k : String) : String :=
  (findVal k d).getD ""

/-- One iteration of the `segment_content` loop (`evaluator.py`
lines 33–60) on the state (current question label, accumulated dict):
skip lines shorter than 15 px; if the *first* string of the margin
transcription contains a digit, switch the label to `"Q" ++ digits` and
create its bucket; append `" " ++ " ".join(full_line_text)` to the active
bucket when the full-line transcription is non-empty. -/
def segStep (st : String × List (String × String)) (line : LineCrop) :
    String × List (String × String) :=
  if line.height < 15 then st
  else
    let cq :=
      match line.margin with
      | m :: _ => if hasDigit m then "Q" ++ digitsOf m else st.1
      | [] => st.1
    let d0 :=
      match line.margin with
      | m :: _ => if hasDigit m then dictEnsure st.2 cq else st.2
      | [] => st.2
    if line.text = [] then (cq, d0)
    else (cq, dictUpsert d0 cq (dictGetD d0 cq ++ " " ++ String.intercalate " " line.text))

/-- `HandwritingEvaluator.segment_content` (`evaluator.py` lines 22–62):
the accumulated question-label → text dict after processing all lines,
starting from the default `"General"` label and an empty dict. -/
def segmentContent (lines : List LineCrop) : List (String × String) :=
  (lines.foldl segStep ("General", [])).2

/-- The active question label after processing a list of lines: the first
component of the same fold as `segmentContent`. -/
def labelAfter (lines : List LineCrop) : String :=
  (lines.foldl segStep ("General", [])).1

/-- The label-only update of one `segment_content` iteration. -/
def labelStep (cq : String) (line : LineCrop) : String :=
  if line.height < 15 then cq
  else
    match line.margin with
    | m :: _ => if hasDigit m then "Q" ++ digitsOf m else cq
    | [] => cq

/-- `DocumentProcessor.load_pdf` (`processor.py` lines 10–18) acting on
the `self.pages` field.  The pdf2image conversion is an external
collaborator; its outcome (a page list, or a raised exception) is passed
in as an `Except` value.  On success the pages are replaced; on an
exception the handler only prints, so the pages field keeps its previous
value. -/
def loadPdf (pages : List Nat) (conversion : Except String (List Nat)) : List Nat :=
  match conversion with
  | Except.ok imgs => imgs
  | Except.error _ => pages

/-- The guard of `run_paper_evaluator` after loading the student script
(`main.py` lines 57–59): the run is aborted exactly when the pages list
is empty. -/
def studentLoadAborts (pages : List Nat) : Bool := pages.isEmpty

/-- Module of one question label (`main.py` lines 150–151):
`syllabus_map.get(q, {}).get('module', 'Unknown')`, with the syllabus
modelled as a label → module association list (a syllabus entry without a
`module` key behaves like an absent entry). -/
def moduleOf (syllabus : List (String × String)) (q : String) : String :=
  (findVal q syllabus).getD "Unknown"

/-- `module_sums.setdefault(module, []).append(score)` (`main.py`
line 154): append the score to the module's bucket, creating the bucket
at the end on first use. -/
def bucketsAdd (bs : List (String × List ℚ)) (m : String) (s : ℚ) :
    List (String × List ℚ) :=
  match findVal m bs with
  | some _ => bs.map (fun p => if p.1 = m then (p.1, p.2 ++ [s]) else p)
  | none => bs ++ [(m, [s])]

/-- The per-module score buckets of `generate_final_report` (`main.py`
lines 146–155), built from the consolidated grading map. -/
def moduleSums (grading : List (String × GradeResult))
    (syllabus : List (String × String)) : List (String × List ℚ) :=
  grading.foldl (fun bs p => bucketsAdd bs (moduleOf syllabus p.1) p.2.score) []

/-- `avg = sum(scores)/len(scores) if scores else 0` (`main.py`
line 162). -/
def moduleAvg (scores : List ℚ) : ℚ :=
  if scores.length = 0 then 0 else scores.sum / scores.length

/-- `grand_score`: the sum of the per-question scores over the
consolidated grading map (`main.py` lines 135–140; `data.get('score', 0)`
is the `score` field, which `grade_paper` always sets). -/
def grandScore (grading : List (String × GradeResult)) : ℚ :=
  (grading.map (fun p => p.2.score)).sum

/-! ### Helper lemmas -/

/-- Grading preserves the question labels of the student map, with their
order. -/
theorem gradePaper_fst (sm km : List (String × String)) :
    (gradePaper sm km).map Prod.fst = sm.map Prod.fst := by
  unfold gradePaper
  rw [List.map_map]
  apply List.map_congr_left
  intro p _
  cases h : findVal p.1 km <;> simp [h]

/-- The label component of one `segment_content` iteration is
`labelStep`. -/
theorem segStep_fst (st : String × List (String × String)) (l : LineCrop) :
    (segStep st l).1 = labelStep st.1 l := by
  unfold segStep labelStep
  by_cases h : l.height < 15
  · simp [h]
  · simp only [h, if_false]
    cases l.margin <;> by_cases ht : l.text = [] <;> simp [ht]

/-- The active label after a fold of `segStep` only depends on the label
component of the state. -/
theorem foldl_segStep_fst (ls : List LineCrop) :
    ∀ st : String × List (String × String),
      (ls.foldl segStep st).1 = ls.foldl labelStep st.1 := by
  induction ls with
  | nil => intro st; rfl
  | cons l t ih => intro st; simp only [List.foldl_cons, ih, segStep_fst]

/-- Appending one line updates the active label by `labelStep`. -/
theorem labelAfter_append (ls : List LineCrop) (l : LineCrop) :
    labelAfter (ls ++ [l]) = labelStep (labelAfter ls) l := by
  unfold labelAfter
  rw [List.foldl_append]
  simp only [List.foldl_cons, List.foldl_nil, segStep_fst]

/-- The longest common subsequence of a list with itself is the whole
list. -/
theorem lcsLen_self (l : List Char) : lcsLen l l = l.length := by
  induction l with
  | nil => simp [lcsLen]
  | cons a as ih => simp [lcsLen, ih]

/-- The longest common subsequence is no longer than either input. -/
theorem lcsLen_le (xs ys : List Char) :
    lcsLen xs ys ≤ xs.length ∧ lcsLen xs ys ≤ ys.length := by
  induction xs, ys using lcsLen.induct with
  | case1 ys => simp [lcsLen]
  | case2 a as => simp [lcsLen]
  | case3 as b bs ih =>
    have heq : lcsLen (b :: as) (b :: bs) = lcsLen as bs + 1 := by simp [lcsLen]
    rw [heq]
    simp only [List.length_cons]
    omega
  | case4 a as b bs h ih1 ih2 =>
    have heq : lcsLen (a :: as) (b :: bs) =
        max (lcsLen (a :: as) bs) (lcsLen as (b :: bs)) := by simp [lcsLen, h]
    rw [heq]
    simp only [List.length_cons] at ih1 ih2 ⊢
    omega

/-- The modelled similarity of a string with itself is 100. -/
theorem wratioSim_self (a : String) : wratioSim a a = 100 := by
  unfold wratioSim
  split
  · rfl
  · rename_i h
    rw [lcsLen_self]
    have h0 : a.data.length ≠ 0 := by omega
    have hq : ((a.data.length : ℚ) + (a.data.length : ℚ)) ≠ 0 := by
      have : (0 : ℚ) < (a.data.length : ℚ) := by
        exact_mod_cast Nat.pos_of_ne_zero h0
      linarith
    rw [div_eq_iff hq]
    ring

/-- The modelled similarity never exceeds 100. -/
theorem wratioSim_le_100 (a b : String) : wratioSim a b ≤ 100 := by
  unfold wratioSim
  split
  · exact le_refl _
  · rename_i h
    have hlen : 0 < a.data.length + b.data.length := Nat.pos_of_ne_zero h
    have hpos : (0 : ℚ) < (a.data.length : ℚ) + b.data.length := by
      exact_mod_cast hlen
    rw [div_le_iff₀ hpos]
    have hle := lcsLen_le a.data b.data
    have : (lcsLen a.data b.data : ℚ) + lcsLen a.data b.data ≤
        (a.data.length : ℚ) + b.data.length := by
      have h1 : (lcsLen a.data b.data : ℚ) ≤ a.data.length := by exact_mod_cast hle.1
      have h2 : (lcsLen a.data b.data : ℚ) ≤ b.data.length := by exact_mod_cast hle.2
      linarith
    nlinarith

/-- Evaluation of `extractStep` on an empty running best. -/
theorem extractStep_none (q c : String) :
    extractStep q none c = some (c, wratioSim q c) := rfl

/-- Evaluation of `extractStep` on a present running best. -/
theorem extractStep_some (q : String) (b : String × ℚ) (c : String) :
    extractStep q (some b) c =
      if b.2 < wratioSim q c then some (c, wratioSim q c) else some b := rfl

/-- Folding `extractStep` from an existing best never lowers the best
score. -/
theorem extractStep_fold_ge (q : String) :
    ∀ (cs : List String) (b : String × ℚ),
      ∃ p, cs.foldl (extractStep q) (some b) = some p ∧ b.2 ≤ p.2 := by
  intro cs
  induction cs with
  | nil => exact fun b => ⟨b, rfl, le_refl _⟩
  | cons c cs ih =>
    intro b
    rw [List.foldl_cons, extractStep_some]
    by_cases hlt : b.2 < wratioSim q c
    · rw [if_pos hlt]
      obtain ⟨p, hp, hle⟩ := ih (c, wratioSim q c)
      exact ⟨p, hp, le_trans (le_of_lt hlt) hle⟩
    · rw [if_neg hlt]
      exact ih b

/-- The best score returned by the fold dominates the similarity of every
choice scanned. -/
theorem extractStep_fold_mem (q : String) :
    ∀ (cs : List String) (acc : Option (String × ℚ)) (c : String),
      c ∈ cs → ∀ p, cs.foldl (extractStep q) acc = some p →
      wratioSim q c ≤ p.2 := by
  intro cs
  induction cs with
  | nil => intro acc c hc; cases hc
  | cons c' cs ih =>
    intro acc c hc p hp
    rw [List.foldl_cons] at hp
    rcases List.mem_cons.mp hc with rfl | hmem
    · have hstep : ∃ b, extractStep q acc c = some b ∧ wratioSim q c ≤ b.2 := by
        cases acc with
        | none => rw [extractStep_none]; exact ⟨(c, wratioSim q c), rfl, le_refl _⟩
        | some b0 =>
          rw [extractStep_some]
          by_cases hlt : b0.2 < wratioSim q c
          · rw [if_pos hlt]; exact ⟨(c, wratioSim q c), rfl, le_refl _⟩
          · rw [if_neg hlt]; exact ⟨b0, rfl, le_of_not_lt hlt⟩
      obtain ⟨b, hb, hble⟩ := hstep
      rw [hb] at hp
      obtain ⟨p', hp', hle⟩ := extractStep_fold_ge q cs b
      rw [hp] at hp'
      cases hp'
      exact le_trans hble hle
    · exact ih (extractStep q acc c') c hmem p hp

/-- Every score produced by the fold is at most 100, provided the
accumulator's score is. -/
theorem extractStep_fold_le_100 (q : String) :
    ∀ (cs : List String) (acc : Option (String × ℚ)),
      (∀ b, acc = some b → b.2 ≤ 100) →
      ∀ p, cs.foldl (extractStep q) acc = some p → p.2 ≤ 100 := by
  intro cs
  induction cs with
  | nil => intro acc hacc p hp; exact hacc p hp
  | cons c cs ih =>
    intro acc hacc p hp
    rw [List.foldl_cons] at hp
    refine ih (extractStep q acc c) ?_ p hp
    intro b hb
    cases acc with
    | none =>
      rw [extractStep_none] at hb
      cases hb
      exact wratioSim_le_100 q c
    | some b0 =>
      rw [extractStep_some] at hb
      by_cases hlt : b0.2 < wratioSim q c
      · rw [if_pos hlt] at hb; cases hb; exact wratioSim_le_100 q c
      · rw [if_neg hlt] at hb; cases hb; exact hacc b rfl

/-- `extractOne` returns a result on every non-empty choice list. -/
theorem extractOne_isSome (q : String) (cs : List String) (h : cs ≠ []) :
    ∃ p, extractOne q cs = some p := by
  cases cs with
  | nil => exact absurd rfl h
  | cons c cs =>
    unfold extractOne
    rw [List.foldl_cons, extractStep_none]
    obtain ⟨p, hp, -⟩ := extractStep_fold_ge q cs (c, wratioSim q c)
    exact ⟨p, hp⟩

/-- The best score of `extractOne` is at most 100. -/
theorem extractOne_le_100 (q : String) (cs : List String) (p : String × ℚ)
    (hp : extractOne q cs = some p) : p.2 ≤ 100 :=
  extractStep_fold_le_100 q cs none (fun _ hb => nomatch hb) p hp

/-- Bounds for `round2` on an already bounded input. -/
theorem round2_bounds (x : ℚ) (h0 : 0 ≤ x) (h1 : x ≤ 100) :
    0 ≤ round2 x ∧ round2 x ≤ 100 := by
  unfold round2
  constructor
  · apply div_nonneg _ (by norm_num)
    have : (0 : ℤ) ≤ round (x * 100) := by
      rw [round_eq]
      apply Int.floor_nonneg.mpr
      linarith
    exact_mod_cast this
  · rw [div_le_iff₀ (by norm_num : (0 : ℚ) < 100)]
    have : round (x * 100) ≤ 10000 := by
      rw [round_eq]
      have hfl : (⌊x * 100 + 1 / 2⌋ : ℚ) ≤ x * 100 + 1 / 2 := Int.floor_le _
      have hub : x * 100 + 1 / 2 ≤ 10000 + 1 / 2 := by linarith
      have : (⌊x * 100 + 1 / 2⌋ : ℚ) < 10001 := by linarith
      exact_mod_cast Int.lt_add_one_iff.mp (by exact_mod_cast this)
    calc ((round (x * 100) : ℤ) : ℚ) ≤ 10000 := by exact_mod_cast this
      _ ≤ 100 * 100 := by norm_num

/-- The percentage computed by `compare_to_key` lies in `[0, 100]` for
any weight map with non-negative weights: each term contributes its
weight at most once, so the earned weight never exceeds the total. -/
theorem compareToKey_score_bounds (t : String) (wm : List (String × ℚ))
    (hw : ∀ p ∈ wm, 0 ≤ p.2) :
    0 ≤ (compareToKey t wm).1 ∧ (compareToKey t wm).1 ≤ 100 := by
  unfold compareToKey
  split
  · constructor <;> norm_num
  · dsimp only
    set pred := fun tw : String × ℚ =>
      match extractOne tw.1 (splitWS (lowerStr t)) with
      | some m => decide (80 ≤ m.2)
      | none => false with hpred
    set earned := ((wm.filter pred).map (fun tw => tw.2)).sum with hearned
    set total := (wm.map (fun tw => tw.2)).sum with htotal
    have hsub : List.Sublist ((wm.filter pred).map (fun tw => tw.2))
        (wm.map (fun tw => tw.2)) := (List.filter_sublist wm).map _
    have h0 : 0 ≤ earned := by
      apply List.sum_nonneg
      intro x hx
      obtain ⟨p, hp, rfl⟩ := List.mem_map.mp hx
      exact hw p (List.mem_of_mem_filter hp)
    have h1 : earned ≤ total := by
      apply List.Sublist.sum_le_sum hsub
      intro x hx
      obtain ⟨p, hp, rfl⟩ := List.mem_map.mp hx
      exact hw p hp
    split
    · rename_i hpos
      apply round2_bounds
      · positivity
      · have : earned / total ≤ 1 := (div_le_one hpos).mpr h1
        calc earned / total * 100 ≤ 1 * 100 := by
              apply mul_le_mul_of_nonneg_right this (by norm_num)
          _ = 100 := by norm_num
    · exact round2_bounds 0 (le_refl 0) (by norm_num)

/-- A key that `findVal` does not find is distinct from every key in the
list. -/
theorem findVal_eq_none {β : Type} (m : String) (bs : List (String × β))
    (h : findVal m bs = none) : ∀ p ∈ bs, p.1 ≠ m := by
  induction bs with
  | nil => intro p hp; cases hp
  | cons b t ih =>
    intro p hp
    unfold findVal at h
    by_cases hb : b.1 = m
    · rw [if_pos hb] at h; cases h
    · rw [if_neg hb] at h
      rcases List.mem_cons.mp hp with rfl | hmem
      · exact hb
      · exact ih h p hmem

/-- `bucketsAdd` skips over a head entry with a different key. -/
theorem bucketsAdd_cons_ne (k : String) (l : List ℚ)
    (rest : List (String × List ℚ)) (m : String) (s : ℚ) (h : k ≠ m) :
    bucketsAdd ((k, l) :: rest) m s = (k, l) :: bucketsAdd rest m s := by
  have hstep : findVal m ((k, l) :: rest) = findVal m rest := by
    simp [findVal, h]
  unfold bucketsAdd
  rw [hstep]
  cases hf : findVal m rest with
  | some v => simp [h]
  | none => simp

/-- `bucketsAdd` leaves the key list unchanged when the key is present,
and appends it when absent; either way key uniqueness is preserved. -/
theorem bucketsAdd_keys_nodup (bs : List (String × List ℚ)) (m : String) (s : ℚ)
    (hnd : (bs.map Prod.fst).Nodup) :
    ((bucketsAdd bs m s).map Prod.fst).Nodup := by
  unfold bucketsAdd
  cases hf : findVal m bs with
  | some v =>
    have : (bs.map (fun p => if p.1 = m then (p.1, p.2 ++ [s]) else p)).map Prod.fst =
        bs.map Prod.fst := by
      rw [List.map_map]
      apply List.map_congr_left
      intro p _
      by_cases hp : p.1 = m <;> simp [hp]
    rw [this]
    exact hnd
  | none =>
    rw [List.map_append]
    have hnotmem : m ∉ bs.map Prod.fst := by
      intro hc
      obtain ⟨p, hp, hpm⟩ := List.mem_map.mp hc
      exact findVal_eq_none m bs hf p hp hpm
    simp only [List.map_cons, List.map_nil]
    rw [List.nodup_append]
    exact ⟨hnd, List.nodup_singleton m, by
      intro a ha hb
      rw [List.mem_singleton] at hb
      exact hnotmem (hb ▸ ha)⟩

/-- Adding a score to a bucket list with unique keys raises the total of
all bucket sums by exactly that score. -/
theorem bucketsAdd_total (bs : List (String × List ℚ)) (m : String) (s : ℚ)
    (hnd : (bs.map Prod.fst).Nodup) :
    ((bucketsAdd bs m s).map (fun p => p.2.sum)).sum =
      ((bs.map (fun p => p.2.sum)).sum) + s := by
  induction bs with
  | nil => simp [bucketsAdd, findVal]
  | cons b t ih =>
    obtain ⟨k, l⟩ := b
    have hnd' : (t.map Prod.fst).Nodup := by
      rw [List.map_cons, List.nodup_cons] at hnd
      exact hnd.2
    by_cases hk : k = m
    · subst hk
      have hfind : findVal k ((k, l) :: t) = some l := by simp [findVal]
      unfold bucketsAdd
      rw [hfind]
      have hknotin : k ∉ t.map Prod.fst := by
        rw [List.map_cons, List.nodup_cons] at hnd
        exact hnd.1
      have hmap : t.map (fun p => if p.1 = k then (p.1, p.2 ++ [s]) else p) = t := by
        have h1 : t.map (fun p => if p.1 = k then (p.1, p.2 ++ [s]) else p) =
            t.map id := by
          apply List.map_congr_left
          intro p hp
          have hne : p.1 ≠ k := fun hc => hknotin (hc ▸ List.mem_map_of_mem Prod.fst hp)
          rw [if_neg hne]
          rfl
        rw [h1, List.map_id]
      simp only [List.map_cons, List.sum_cons, eq_self_iff_true, if_true, hmap,
        List.sum_append, List.sum_cons, List.sum_nil]
      ring
    · rw [bucketsAdd_cons_ne k l t m s hk]
      simp only [List.map_cons, List.sum_cons]
      rw [ih hnd']
      ring

/-- Folding the per-question bucket update keeps keys unique. -/
theorem foldBuckets_nodup (syllabus : List (String × String)) :
    ∀ (g : List (String × GradeResult)) (bs : List (String × List ℚ)),
      (bs.map Prod.fst).Nodup →
      (((g.foldl (fun bs p => bucketsAdd bs (moduleOf syllabus p.1) p.2.score) bs).map
          Prod.fst).Nodup) := by
  intro g
  induction g with
  | nil => intro bs h; exact h
  | cons p t ih =>
    intro bs h
    rw [List.foldl_cons]
    exact ih _ (bucketsAdd_keys_nodup bs _ _ h)

/-- Folding the per-question bucket update adds every score once to the
total of all bucket sums. -/
theorem foldBuckets_total (syllabus : List (String × String)) :
    ∀ (g : List (String × GradeResult)) (bs : List (String × List ℚ)),
      (bs.map Prod.fst).Nodup →
      (((g.foldl (fun bs p => bucketsAdd bs (moduleOf syllabus p.1) p.2.score) bs).map
          (fun p => p.2.sum)).sum) =
        ((bs.map (fun p => p.2.sum)).sum) + (g.map (fun p => p.2.score)).sum := by
  intro g
  induction g with
  | nil => intro bs _; simp
  | cons p t ih =>
    intro bs h
    rw [List.foldl_cons, List.map_cons, List.sum_cons,
      ih _ (bucketsAdd_keys_nodup bs _ _ h), bucketsAdd_total bs _ _ h]
    ring

/-- A bucket's average times its question count is its score sum (also
when the guard returns 0 for an empty bucket). -/
theorem moduleAvg_mul_len (l : List ℚ) : moduleAvg l * (l.length : ℚ) = l.sum := by
  unfold moduleAvg
  by_cases h : l.length = 0
  · rw [if_pos h, List.length_eq_zero.mp h]
    simp
  · rw [if_neg h]
    exact div_mul_cancel₀ _ (Nat.cast_ne_zero.mpr h)

/-- The ink-row indices are strictly increasing. -/
theorem inkRows_sorted (img : List (List Nat)) :
    List.Pairwise (· < ·) (inkRows img) :=
  (List.pairwise_lt_range _).sublist (List.filter_sublist _)

/-- Every ink-row index is a valid row of the image. -/
theorem inkRows_lt (img : List (List Nat)) :
    ∀ i ∈ inkRows img, i < img.length := by
  intro i hi
  unfold inkRows at hi
  have := (List.mem_filter.mp hi).1
  rw [List.mem_range] at this
  unfold rowSums at this
  rwa [List.length_map] at this

/-- Invariants of the raw-fragment grouping: the produced intervals have
gaps greater than 15 between them (so at least 16), each interval is
well-formed and stays inside the image, and the first interval starts at
`start`. -/
theorem rawGo_spec (h : Nat) :
    ∀ (rest : List Nat) (start prev : Nat),
      start ≤ prev → prev < h → (∀ n ∈ rest, n < h) →
      List.Chain (· < ·) prev rest →
      (List.Chain' (fun a b : Nat × Nat => a.2 + 16 ≤ b.1) (rawGo start prev rest)
       ∧ (∀ p ∈ rawGo start prev rest, p.1 ≤ p.2 ∧ p.2 < h)
       ∧ ∃ e rest', rawGo start prev rest = (start, e) :: rest') := by
  intro rest
  induction rest with
  | nil =>
    intro start prev h1 h2 _ _
    refine ⟨List.chain'_singleton _, ?_, prev, [], rfl⟩
    intro p hp
    simp only [rawGo] at hp
    rw [List.mem_singleton] at hp
    subst hp
    exact ⟨h1, h2⟩
  | cons n ns ih =>
    intro start prev h1 h2 h3 hch
    have hn : prev < n := (List.chain_cons.mp hch).1
    have hch' : List.Chain (· < ·) n ns := (List.chain_cons.mp hch).2
    have hn_h : n < h := h3 n (List.mem_cons_self ..)
    have h3' : ∀ m ∈ ns, m < h := fun m hm => h3 m (List.mem_cons_of_mem _ hm)
    simp only [rawGo]
    by_cases hsplit : prev + 15 < n
    · rw [if_pos hsplit]
      obtain ⟨hc, hel, e, rest', heq⟩ := ih n n (le_refl n) hn_h h3' hch'
      refine ⟨?_, ?_, prev, _, rfl⟩
      · rw [heq]
        rw [heq] at hc
        exact List.chain'_cons.mpr ⟨by omega, hc⟩
      · intro p hp
        rcases List.mem_cons.mp hp with rfl | hmem
        · exact ⟨h1, h2⟩
        · exact hel p hmem
    · rw [if_neg hsplit]
      exact ih start n (by omega) hn_h h3' hch'

/-- Invariants of the smart merge: the emitted intervals are separated by
gaps of at least 40, each is well-formed and stays inside the image, and
the first one starts at `cs`. -/
theorem mergeGo_spec (h : Nat) :
    ∀ (l : List (Nat × Nat)) (cs ce : Nat),
      cs ≤ ce → ce < h → (∀ p ∈ l, p.1 ≤ p.2 ∧ p.2 < h) →
      List.Chain (fun a b : Nat × Nat => a.2 + 16 ≤ b.1) (cs, ce) l →
      (List.Chain' (fun a b : Nat × Nat => a.2 + 40 ≤ b.1) (mergeGo cs ce l)
       ∧ (∀ p ∈ mergeGo cs ce l, p.1 ≤ p.2 ∧ p.2 < h)
       ∧ ∃ e rest', mergeGo cs ce l = (cs, e) :: rest') := by
  intro l
  induction l with
  | nil =>
    intro cs ce h1 h2 _ _
    refine ⟨List.chain'_singleton _, ?_, ce, [], rfl⟩
    intro p hp
    simp only [mergeGo] at hp
    rw [List.mem_singleton] at hp
    subst hp
    exact ⟨h1, h2⟩
  | cons q rest ih =>
    intro cs ce h1 h2 hel hch
    have hq : ce + 16 ≤ q.1 := (List.chain_cons.mp hch).1
    have hch' : List.Chain (fun a b : Nat × Nat => a.2 + 16 ≤ b.1) q rest :=
      (List.chain_cons.mp hch).2
    have hq12 : q.1 ≤ q.2 ∧ q.2 < h := hel q (List.mem_cons_self ..)
    have hel' : ∀ p ∈ rest, p.1 ≤ p.2 ∧ p.2 < h :=
      fun p hp => hel p (List.mem_cons_of_mem _ hp)
    simp only [mergeGo]
    by_cases hm : q.1 < ce + 40
    · rw [if_pos hm]
      apply ih cs q.2 (by omega) hq12.2 hel'
      cases rest with
      | nil => exact List.Chain.nil
      | cons r rs =>
        exact List.chain_cons.mpr
          ⟨(List.chain_cons.mp hch').1, (List.chain_cons.mp hch').2⟩
    · rw [if_neg hm]
      obtain ⟨hc, helr, e, rest', heq⟩ := ih q.1 q.2 hq12.1 hq12.2 hel' hch'
      refine ⟨?_, ?_, ce, _, rfl⟩
      · rw [heq]
        rw [heq] at hc
        exact List.chain'_cons.mpr ⟨by omega, hc⟩
      · intro p hp
        rcases List.mem_cons.mp hp with rfl | hmem
        · exact ⟨h1, h2⟩
        · exact helr p hmem

/-- In a chain of well-formed intervals with gaps of at least 40, the
head precedes every later interval by at least that gap. -/
theorem chain_gap_head (x : Nat × Nat) :
    ∀ (t : List (Nat × Nat)),
      List.Chain' (fun a b : Nat × Nat => a.2 + 40 ≤ b.1) (x :: t) →
      (∀ p ∈ t, p.1 ≤ p.2) → ∀ y ∈ t, x.2 + 40 ≤ y.1 := by
  intro t
  induction t generalizing x with
  | nil => intro _ _ y hy; cases hy
  | cons y t2 ih =>
    intro hc hel z hz
    have hxy : x.2 + 40 ≤ y.1 := (List.chain'_cons.mp hc).1
    rcases List.mem_cons.mp hz with rfl | hz2
    · exact hxy
    · have hrest := ih y (List.chain'_cons.mp hc).2
        (fun p hp => hel p (List.mem_cons_of_mem _ hp)) z hz2
      have : y.1 ≤ y.2 := hel y (List.mem_cons_self ..)
      omega

/-- A 40-gap chain of well-formed intervals is pairwise 40-gapped. -/
theorem chain_gap_pairwise :
    ∀ (l : List (Nat × Nat)),
      List.Chain' (fun a b : Nat × Nat => a.2 + 40 ≤ b.1) l →
      (∀ p ∈ l, p.1 ≤ p.2) →
      List.Pairwise (fun a b : Nat × Nat => a.2 + 40 ≤ b.1) l := by
  intro l
  induction l with
  | nil => intro _ _; exact List.Pairwise.nil
  | cons x t ih =>
    intro hc hel
    rw [List.pairwise_cons]
    have helt : ∀ p ∈ t, p.1 ≤ p.2 := fun p hp => hel p (List.mem_cons_of_mem _ hp)
    exact ⟨chain_gap_head x t hc helt, ih hc.tail helt⟩

/-! ### Claim theorems -/

/-- C1, counterexample.  The claim says the rubric equals the set obtained
by stripping trailing `.`/`,` and keeping tokens longer than 4 characters,
so that every weighted term is longer than 4 characters after stripping.
On the key text `"word."` the code keeps the 5-character token `"word."`
(the length test precedes stripping) and weights the 4-character term
`"word"`, which the claim's set excludes. -/
theorem buildRubric_strip_order_counterexample :
    "word" ∈ buildRubricTerms "word." ∧ "word" ∉ claimRubricTerms "word."
    ∧ ¬(4 < ("word" : String).length) := by
  decide

/-- C1, amended: the rubric's terms are exactly the results of stripping
leading and trailing `.`/`,` from those whitespace tokens of the
lower-cased key text whose length *before* stripping exceeds 4; they are
deduplicated, and every term carries the uniform weight 10.  (After
stripping, a term may have length 4 or less.) -/
theorem buildRubric_characterization (keyText : String) (w : String) :
    (w ∈ buildRubricTerms keyText ↔
      ∃ tok ∈ splitWS (lowerStr keyText), 4 < tok.length ∧ stripPunct tok = w)
    ∧ (buildRubricTerms keyText).Nodup
    ∧ ∀ p ∈ buildRubric keyText, p.2 = 10 := by
  refine ⟨?_, List.nodup_dedup _, ?_⟩
  · simp only [buildRubricTerms, List.mem_dedup, List.mem_map, List.mem_filter,
      decide_eq_true_eq]
    constructor
    · rintro ⟨a, ⟨ha, hl⟩, rfl⟩
      exact ⟨a, ha, hl, rfl⟩
    · rintro ⟨a, ha, hl, rfl⟩
      exact ⟨a, ⟨ha, hl⟩, rfl⟩
  · intro p hp
    simp only [buildRubric, List.mem_map] at hp
    obtain ⟨a, -, rfl⟩ := hp
    rfl

/-- C1, witness for the amended theorem at the key text `"alpha"`. -/
theorem buildRubric_characterization_w :
    "alpha" ∈ buildRubricTerms "alpha" ∧ (("alpha", (10 : ℚ)) : String × ℚ).2 = 10 :=
  ⟨(buildRubric_characterization "alpha" "alpha").1.mpr
      ⟨"alpha", by decide, by decide, rfl⟩,
   (buildRubric_characterization "alpha" "alpha").2.2 ("alpha", (10 : ℚ)) (by decide)⟩

/-- C2: the line regions emitted by `extract_lines` (after greedy
adjacent merging, minimum-height rejection and symmetric 20-px padding
clipped to the image bounds) are pairwise non-overlapping half-open
vertical intervals `[y1, y2)` listed in strictly increasing `y_start`
order. -/
theorem extractLines_disjoint_sorted (img : List (List Nat)) :
    List.Pairwise (fun a b : Nat × Nat => a.2 ≤ b.1 ∧ a.1 < b.1)
      (extractLines img) := by
  unfold extractLines
  by_cases hink : inkRows img = []
  · rw [if_pos hink]
    exact List.Pairwise.nil
  · rw [if_neg hink]
    obtain ⟨r, rs, hre⟩ : ∃ r rs, inkRows img = r :: rs := by
      cases h : inkRows img with
      | nil => exact absurd h hink
      | cons a l => exact ⟨a, l, rfl⟩
    have hsorted := inkRows_sorted img
    have hlt := inkRows_lt img
    rw [hre] at hsorted hlt
    have hchain : List.Chain (· < ·) r rs := List.chain_iff_pairwise.mpr hsorted
    obtain ⟨hcraw, helraw, e0, rest0, heqraw⟩ :=
      rawGo_spec img.length rs r r (le_refl r) (hlt r (List.mem_cons_self ..))
        (fun n hn => hlt n (List.mem_cons_of_mem _ hn)) hchain
    rw [hre]
    have hri : rawIntervals (r :: rs) = rawGo r r rs := rfl
    rw [hri, heqraw]
    have hmi : mergeIntervals ((r, e0) :: rest0) = mergeGo r e0 rest0 := rfl
    rw [hmi]
    rw [heqraw] at hcraw helraw
    have hr_e0 : r ≤ e0 ∧ e0 < img.length := helraw (r, e0) (List.mem_cons_self ..)
    obtain ⟨hcm, helm, e1, rest1, heqm⟩ :=
      mergeGo_spec img.length rest0 r e0 hr_e0.1 hr_e0.2
        (fun p hp => helraw p (List.mem_cons_of_mem _ hp)) hcraw
    have hpw : List.Pairwise (fun a b : Nat × Nat => a.2 + 40 ≤ b.1)
        (mergeGo r e0 rest0) :=
      chain_gap_pairwise _ hcm (fun p hp => (helm p hp).1)
    have hpwf : List.Pairwise (fun a b : Nat × Nat => a.2 + 40 ≤ b.1)
        ((mergeGo r e0 rest0).filter (fun p => p.1 + 30 < p.2)) :=
      hpw.sublist (List.filter_sublist _)
    rw [List.pairwise_map]
    apply List.Pairwise.imp_of_mem ?_ hpwf
    intro a b ha hb hr40
    have ha' := helm a (List.mem_of_mem_filter ha)
    have hb' := helm b (List.mem_of_mem_filter hb)
    have hmin : min img.length (a.2 + 20) ≤ a.2 + 20 := min_le_right _ _
    dsimp only
    constructor
    · omega
    · omega

/-- C3: a student question label with no same-label entry in the key map
is graded as score 0 with status "No matching question in Answer Key",
and grading still produces one result per student label (the run does not
fail). -/
theorem gradePaper_no_matching_question (sm km : List (String × String))
    (q st : String) (hmem : (q, st) ∈ sm) (hnone : findVal q km = none) :
    ((q, { score := 0, matchList := none, status := some noKeyStatus }) ∈
        gradePaper sm km)
    ∧ (gradePaper sm km).map Prod.fst = sm.map Prod.fst := by
  constructor
  · unfold gradePaper
    exact List.mem_map.mpr ⟨(q, st), hmem, by simp [hnone]⟩
  · exact gradePaper_fst sm km

/-- C3, witness: student label "Q5" absent from the key map. -/
theorem gradePaper_no_matching_question_w :
    (("Q5", { score := 0, matchList := none, status := some noKeyStatus }) ∈
        gradePaper [("Q5", "ans")] [("Q1", "key")])
    ∧ (gradePaper [("Q5", "ans")] [("Q1", "key")]).map Prod.fst =
        [("Q5", "ans")].map Prod.fst :=
  gradePaper_no_matching_question [("Q5", "ans")] [("Q1", "key")] "Q5" "ans"
    (by decide) (by decide)

/-- C4: scoring with an empty student text returns `(0, [])`, and scoring
with an empty rubric returns `(0, [])`; the guard fires before any
division. -/
theorem compareToKey_degenerate (wm : List (String × ℚ)) (t : String) :
    compareToKey "" wm = (0, []) ∧ compareToKey t [] = (0, []) := by
  constructor <;> simp [compareToKey]

/-- C5, counterexample.  The claim says a digit anywhere in the margin
transcription switches the label to "Q" followed by the digits found.  On
a margin transcription `["a", "3"]` (digit in the second recognized
string) the code leaves the label at `"General"`, because it only
inspects the first recognized string (`margin_results[0]`,
`evaluator.py` lines 44–46), while the claim demands `"Q3"`. -/
theorem segment_label_counterexample :
    labelAfter [⟨20, ["a", "3"], ["x"]⟩] = "General"
    ∧ (["a", "3"] : List String).any hasDigit = true
    ∧ "Q" ++ digitsOf (String.join ["a", "3"]) = "Q3"
    ∧ ("General" : String) ≠ "Q3" := by
  decide

/-- C5, amended: if the *first* recognized string of the margin
transcription of a (not skipped, i.e. at least 15 px high) line contains
a digit, the active label becomes "Q" followed by the digit characters of
that first string; a line whose margin transcription is empty or whose
first string has no digit (or which is skipped for height) leaves the
active label unchanged, so a label stays active until the next margin
digit is found. -/
theorem segment_label_update :
    (∀ (ls : List LineCrop) (l : LineCrop) (m : String) (ms : List String),
        15 ≤ l.height → l.margin = m :: ms → hasDigit m = true →
        labelAfter (ls ++ [l]) = "Q" ++ digitsOf m)
    ∧ (∀ (ls : List LineCrop) (l : LineCrop),
        (l.height < 15 ∨
          ∀ (m : String) (ms : List String), l.margin = m :: ms → hasDigit m = false) →
        labelAfter (ls ++ [l]) = labelAfter ls) := by
  constructor
  · intro ls l m ms hh hm hd
    rw [labelAfter_append]
    unfold labelStep
    rw [if_neg (by omega), hm]
    simp [hd]
  · intro ls l h
    rw [labelAfter_append]
    unfold labelStep
    rcases h with h | h
    · rw [if_pos h]
    · by_cases hh : l.height < 15
      · rw [if_pos hh]
      · rw [if_neg hh]
        cases hm : l.margin with
        | nil => rfl
        | cons m ms => simp [h m ms hm]

/-- C5, witness for the amended theorem: margin `"Q2)"` yields label
`"Q2"`, and a following line without margin digits keeps it. -/
theorem segment_label_update_w :
    labelAfter [⟨20, ["Q2)"], ["ans"]⟩] = "Q" ++ digitsOf "Q2)"
    ∧ labelAfter ([⟨20, ["Q2)"], ["ans"]⟩] ++ [⟨20, [], ["more"]⟩]) =
        labelAfter [⟨20, ["Q2)"], ["ans"]⟩] :=
  ⟨segment_label_update.1 [] ⟨20, ["Q2)"], ["ans"]⟩ "Q2)" [] (by decide) rfl (by decide),
   segment_label_update.2 [⟨20, ["Q2)"], ["ans"]⟩] ⟨20, [], ["more"]⟩
      (Or.inr (fun m ms h => nomatch h))⟩

/-- C6: for every student text and every rubric built from a key text,
the percentage returned by `compare_to_key` lies in `[0, 100]`: every
rubric weight is the non-negative constant 10 and each term contributes
its weight at most once, so the earned weight never exceeds the total. -/
theorem compareToKey_percentage_range (studentText keyText : String) :
    0 ≤ (compareToKey studentText (buildRubric keyText)).1
    ∧ (compareToKey studentText (buildRubric keyText)).1 ≤ 100 := by
  apply compareToKey_score_bounds
  intro p hp
  unfold buildRubric at hp
  obtain ⟨a, -, rfl⟩ := List.mem_map.mp hp
  norm_num

/-- C7: if a rubric term was matched in a student token list (best
similarity `s`, at least the 80 acceptance threshold, on the token `w`
sitting at position `i`), then replacing that student token with an exact
copy of the term cannot decrease the best similarity found for the term:
the new best is still defined and is at least `s`. -/
theorem extractOne_exact_copy_monotone (term : String) (ws : List String)
    (i : Nat) (hi : i < ws.length) (w : String) (s : ℚ)
    (hw : ws.get ⟨i, hi⟩ = w) (hbest : extractOne term ws = some (w, s))
    (hmatch : 80 ≤ s) :
    ∃ p, extractOne term (ws.set i term) = some p ∧ s ≤ p.2 := by
  have hne : ws.set i term ≠ [] := by
    apply List.ne_nil_of_length_pos
    rw [List.length_set]
    omega
  obtain ⟨p, hp⟩ := extractOne_isSome term (ws.set i term) hne
  have hmem : term ∈ ws.set i term := by
    rw [List.mem_iff_getElem]
    exact ⟨i, by rw [List.length_set]; exact hi, List.getElem_set_self ..⟩
  have h1 : wratioSim term term ≤ p.2 :=
    extractStep_fold_mem term (ws.set i term) none term hmem p hp
  rw [wratioSim_self] at h1
  exact ⟨p, hp, le_trans (extractOne_le_100 term ws (w, s) hbest) h1⟩

/-- C7, witness: the term "abcde" matched the token "abcdf" with
similarity exactly 80 (one substituted character); replacing the token
with "abcde" leaves a best of at least that. -/
theorem extractOne_exact_copy_monotone_w :
    ∃ p, extractOne "abcde" (["abcdf"].set 0 "abcde") = some p
      ∧ wratioSim "abcde" "abcdf" ≤ p.2 :=
  extractOne_exact_copy_monotone "abcde" ["abcdf"] 0 (by norm_num) "abcdf"
    (wratioSim "abcde" "abcdf") rfl rfl
    (by
      have hl : lcsLen "abcde".data "abcdf".data = 4 := by
        have hd1 : "abcde".data = ['a', 'b', 'c', 'd', 'e'] := rfl
        have hd2 : "abcdf".data = ['a', 'b', 'c', 'd', 'f'] := rfl
        rw [hd1, hd2]
        simp [lcsLen]
      unfold wratioSim
      rw [hl]
      norm_num)

/-- C8: when the conversion collaborator raises (missing or unreadable
file), `load_pdf` swallows the exception and leaves the previously loaded
pages in place, so the `if not processor.pages` guard in
`run_paper_evaluator` does not abort the run: the stale pages (the answer
key's) are evaluated in place of the student script.  This contradicts
the claim (and the spec's error taxonomy), which requires zero pages and
an abort — the code keeping stale state is the bug. -/
theorem loadPdf_failure_keeps_stale_pages :
    loadPdf [0] (Except.error "unreadable") = [0]
    ∧ studentLoadAborts (loadPdf [0] (Except.error "unreadable")) = false := by
  decide

/-- C9: in the final report, the sum over modules of (module average
score × number of questions in the module) equals the overall grand
score, so the module-level averages weighted by question count reconcile
with the overall average over all graded questions. -/
theorem moduleSums_reconcile (grading : List (String × GradeResult))
    (syllabus : List (String × String)) :
    ((moduleSums grading syllabus).map
        (fun p => moduleAvg p.2 * (p.2.length : ℚ))).sum = grandScore grading := by
  have h1 : ∀ bs : List (String × List ℚ),
      (bs.map (fun p => moduleAvg p.2 * (p.2.length : ℚ))).sum =
        (bs.map (fun p => p.2.sum)).sum := by
    intro bs
    induction bs with
    | nil => rfl
    | cons b t ih =>
      simp only [List.map_cons, List.sum_cons, ih, moduleAvg_mul_len]
  rw [h1]
  unfold moduleSums grandScore
  rw [foldBuckets_total syllabus grading [] (by simp)]
  simp

/-- C10: the label list (hence the label set) of the grading result is
exactly that of the student map; a label present only in the key map
produces no result entry, so it contributes neither a zero score nor a
count to the final report's average. -/
theorem gradePaper_label_set (sm km : List (String × String)) :
    (gradePaper sm km).map Prod.fst = sm.map Prod.fst
    ∧ ∀ q : String, q ∉ sm.map Prod.fst → q ∉ (gradePaper sm km).map Prod.fst := by
  refine ⟨gradePaper_fst sm km, ?_⟩
  intro q hq
  rw [gradePaper_fst sm km]
  exact hq

/-- C10, witness: key label "Q2" unanswered by the student produces no
result entry. -/
theorem gradePaper_label_set_w :
    "Q2" ∉ (gradePaper [("Q1", "a")] [("Q1", "k"), ("Q2", "k2")]).map Prod.fst :=
  (gradePaper_label_set [("Q1", "a")] [("Q1", "k"), ("Q2", "k2")]).2 "Q2" (by decide)

end PaperEval
